import Mathlib

/-!
Verification of the tmemes rendering core against its specification.

The definitions below are shallow embeddings of the Go source:

* `Tmemes.Area`, `Tmemes.TextLine` embed the data model from `types.go`
  (float64 coordinates become exact rationals, Go `int` arithmetic on
  non-negative values becomes `Nat` arithmetic, which agrees with Go's
  truncating division and remainder on the reachable domain).
* `Tmemes.newFrames`, `Tmemes.frames.visibleAt`, `Tmemes.frames.frame` and
  `Tmemes.frame.area` embed the frame scheduler of `memedraw/utils.go`.
-/

namespace Tmemes

/-- An `Area` is a placement rectangle (from `types.go`): fractional X, Y
anchor, fractional width (0 meaning full width) and a tween flag. -/
structure Area where
  X : ℚ
  Y : ℚ
  Width : ℚ
  Tween : Bool
deriving DecidableEq, Repr

instance : Inhabited Area := ⟨⟨0, 0, 0, false⟩⟩

/-- A `TextLine` is one line of overlay text (from `types.go`): the literal
string, one or more areas (`Field`) and the fractional visibility window
`Start`/`End` (0..1 of total frame count).  Colors are omitted: no claim
mentions them. -/
structure TextLine where
  Text : String
  Field : List Area
  Start : ℚ
  End : ℚ
deriving DecidableEq, Repr

/-- The `frames` tracker built by `newFrames` in `memedraw/utils.go`:
a `TextLine` together with the precomputed band size `framesPerArea` and the
visibility window `[start, stop]` (`stop` embeds the Go field `end`, which is
a reserved word in Lean). -/
structure frames where
  line : TextLine
  framesPerArea : ℕ
  start : ℕ
  stop : ℕ
deriving DecidableEq, Repr

/-- Embedding of `newFrames(frameCount, line)` from `memedraw/utils.go`:
`fpa := math.Ceil(float64(frameCount) / float64(na))`;
`start, end := 0, frameCount`; `start = ceil(Start*frameCount)` if
`Start > 0`; `end = ceil(End*frameCount)` if `End > Start`. -/
def newFrames (frameCount : ℕ) (line : TextLine) : frames :=
  let na := line.Field.length
  let fpa := (⌈(frameCount : ℚ) / (na : ℚ)⌉).toNat
  let start := if line.Start > 0 then (⌈line.Start * (frameCount : ℚ)⌉).toNat else 0
  let stop := if line.End > line.Start then (⌈line.End * (frameCount : ℚ)⌉).toNat else frameCount
  { line := line, framesPerArea := fpa, start := start, stop := stop }

/-- Embedding of `frames.visibleAt(i)`: reports `start <= i && i <= end`. -/
def frames.visibleAt (f : frames) (i : ℕ) : Bool :=
  decide (f.start ≤ i ∧ i ≤ f.stop)

/-- A single-frame view of a movable text line, the `frame` struct of
`memedraw/utils.go` (Go embeds the `TextLine`; here it is the field
`line`). -/
structure frame where
  line : TextLine
  pos : ℕ
  i : ℕ
  fpa : ℕ
deriving DecidableEq, Repr

/-- Embedding of `frames.frame(i)`: a single-area line always yields
`frame{line, 0, 0, 1}`; otherwise the active index is
`(i / framesPerArea) % len(Field)`. -/
def frames.frame (f : frames) (i : ℕ) : frame :=
  if f.line.Field.length = 1 then ⟨f.line, 0, 0, 1⟩
  else ⟨f.line, (i / f.framesPerArea) % f.line.Field.length, i, f.framesPerArea⟩

/-- Embedding of `frame.area()`: returns the active area, linearly
interpolating X and Y toward the next area in sequence when the active
area's tween flag is set and `i % fpa != 0`.  Go's panicking index
`f.Field[pos]` becomes `List.getD` (claim C10 shows the indices are in
range). -/
def frame.area (f : frame) : Area :=
  let cur := f.line.Field.getD f.pos default
  if !cur.Tween then cur
  else
    let rem := f.i % f.fpa
    if rem ≠ 0 then
      let npos := ((f.i + f.fpa) / f.fpa) % f.line.Field.length
      let next := f.line.Field.getD npos default
      let dx := (next.X - cur.X) / (f.fpa : ℚ)
      let dy := (next.Y - cur.Y) / (f.fpa : ℚ)
      { cur with X := cur.X + (rem : ℚ) * dx, Y := cur.Y + (rem : ℚ) * dy }
    else cur

/-! Embedding of `overlayTextOnImage` (memedraw `draw.go`): only the layout
parameters it computes are modelled — the word-wrap width, and the anchor
point taken from the resolved area.  Font metrics and pixel stamping are
calls into external libraries (freetype, gg) and carry no claim. -/

/-- Embedding of `oneForZero`: maps 0 to 1 and is the identity elsewhere. -/
def oneForZero (v : ℚ) : ℚ :=
  if v = 0 then 1 else v

/-- Embedding of `strings.TrimSpace`: drop leading and trailing
whitespace. -/
def trimSpace (s : String) : String :=
  String.mk (((s.data.dropWhile Char.isWhitespace).reverse.dropWhile Char.isWhitespace).reverse)

/-- The layout parameters computed at the top of `overlayTextOnImage`. -/
structure TextLayout where
  wrapWidth : ℚ
  x : ℚ
  y : ℚ
deriving DecidableEq, Repr

/-- Embedding of the layout prefix of `overlayTextOnImage(dc, tl, bounds)`:
returns `none` when the trimmed text is empty (the function is a no-op), and
otherwise the wrap width `oneForZero(tl.Field[0].Width) * bounds.Dx()` and
the anchor `tl.area().X * bounds.Dx()`, `tl.area().Y * bounds.Dy()`. -/
def overlayLayout (tl : frame) (dxBound dyBound : ℚ) : Option TextLayout :=
  if trimSpace tl.line.Text = "" then none
  else some
    { wrapWidth := oneForZero (tl.line.Field.getD 0 default).Width * dxBound
      x := tl.area.X * dxBound
      y := tl.area.Y * dyBound }

/-! Embedding of the GIF frame pipeline of `DrawGIF` (memedraw `draw.go`,
the parallel revision whose backdrop chain is sequenced by per-frame ready
channels).  Pixels are palette entries, `none` marking a transparent pixel;
an image is its flat pixel list; `draw.Draw(..., draw.Over)` on paletted
images replaces a destination pixel wherever the source pixel is opaque. -/

/-- A paletted image: a flat list of pixels, `none` = transparent. -/
abbrev Img : Type := List (Option ℕ)

/-- Over-compositing `top` onto `base` (Go `draw.Draw` with `draw.Over`). -/
def overDraw (base top : Img) : Img :=
  List.zipWith (fun b t => match t with | some c => some c | none => b) base top

/-- The uniform background image `backdrops[0]`: the canvas filled with
`img.Image[0].Palette[img.BackgroundIndex]` (Go `image.NewUniform` drawn with
`draw.Src`). -/
def mkBackground (size : ℕ) (c : ℕ) : Img :=
  List.replicate size (some c)

/-- Go `image/gif` disposal codes. -/
def disposalNone : ℕ := 1

/-- Go `gif.DisposalBackground`. -/
def disposalBackground : ℕ := 2

/-- Go `gif.DisposalPrevious`. -/
def disposalPrevious : ℕ := 3

/-- The backdrop chain of `DrawGIF`: `backdrops[0]` is the uniform background
`bg`; after rendering frame `i` onto its backdrop (`dst`, before the text
overlay is drawn), the switch on `img.Disposal[i]` selects frame `i+1`'s
backdrop: `DisposalBackground → backdrops[0]`, `DisposalPrevious →
backdrops[i]`, `DisposalNone →` a copy of `dst`, and the `default` arm also
yields `backdrops[0]`. -/
def backdropChain (bg : Img) (frameImgs : List Img) (disposal : List ℕ) : ℕ → Img
  | 0 => bg
  | i + 1 =>
    let cur := backdropChain bg frameImgs disposal i
    let dst := overDraw cur (frameImgs.getD i [])
    if disposal.getD i 0 = disposalBackground then bg
    else if disposal.getD i 0 = disposalPrevious then cur
    else if disposal.getD i 0 = disposalNone then dst
    else bg

/-- The output frame `i` of `DrawGIF`: backdrop, then the raw frame drawn
over it, then the text overlay drawn over that. -/
def renderGIFFrame (bg : Img) (frameImgs : List Img) (disposal : List ℕ)
    (texts : List Img) (i : ℕ) : Img :=
  overDraw (overDraw (backdropChain bg frameImgs disposal i) (frameImgs.getD i []))
    (texts.getD i [])

/-! Embedding of the generation cache of `cmd/tmemes/api.go`
(`serveContentMacro`, `generateMacro`, `generateMacroGIF`).  The handler's
effects are made explicit: operating-system and database calls become oracle
fields of an environment record, and the handler returns the response
together with the number of renderer invocations this request performed. -/

/-- Embedding of `filepath.Ext`: the suffix of the path beginning at the
final dot in the final path element, or the empty string. -/
def fileExt (s : String) : String :=
  let rev := s.data.reverse
  let tail := rev.takeWhile (fun c => c ≠ '.' ∧ c ≠ '/')
  if (rev.drop tail.length).head? = some '.' then String.mk ('.' :: tail.reverse)
  else ""

/-- Embedding of `strings.HasSuffix`: reports whether `pat` is a suffix of
`s`. -/
def hasSuffix (s pat : String) : Bool :=
  if pat.data.length ≤ s.data.length then
    decide (s.data.drop (s.data.length - pat.data.length) = pat.data)
  else false

/-- Embedding of `formatEtag`: `fmt.Sprintf` of the hex digest between
double quotes; the digest itself is abstract (a parameter of the model). -/
def formatEtag (digestHex : String) : String :=
  "\"" ++ digestHex ++ "\""

/-- Outcome of one call to `generateMacro`/`generateMacroGIF` for a fixed
cache path: the returned error (if any), the bytes present at the cache path
afterwards, and the ETag recorded in `imageFileEtags` for that path. -/
structure GenResult where
  err : Option String
  file : Option (List ℕ)
  etag : Option String
deriving DecidableEq, Repr

/-- Oracles for the fallible steps of `generateMacro`/`generateMacroGIF`, and
the prior contents of the cache path (`initFile`); `encodeRes` is the byte
stream the encoder pushes through the hashing `io.MultiWriter` tee (on error
any partial bytes are irrelevant because the file is removed). -/
structure GenEnv where
  templatePathRes : Except String String
  openOk : Bool
  decodeRes : Except String Unit
  gifDecodeRes : Except String Unit
  gifFrameCount : ℕ
  createOk : Bool
  encodeRes : Except String (List ℕ)
  closeOk : Bool
  initFile : Option (List ℕ)
deriving Repr

/-- The shared tail of both generators, from `os.Create` on: stream the
encoded bytes through the hash/file tee, then `Close`; the deferred handler
removes the file and skips the ETag on any error, and records
`formatEtag(etagHash)` on success. -/
def encodeFinish (h : List ℕ → String) (env : GenEnv) : GenResult :=
  match env.encodeRes with
  | .error e => { err := some e, file := none, etag := none }
  | .ok bs =>
    if env.closeOk then { err := none, file := some bs, etag := some (formatEtag (h bs)) }
    else { err := some "close error", file := none, etag := none }

/-- Embedding of `generateMacroGIF(m, cachePath, srcFile)`: decode the GIF,
reject zero frames, render (`memedraw.DrawGIF`, pure), create the
destination file and stream the encoding through the hashing tee. -/
def generateMacroGIF (h : List ℕ → String) (env : GenEnv) : GenResult :=
  match env.gifDecodeRes with
  | .error e => { err := some e, file := env.initFile, etag := none }
  | .ok _ =>
    if env.gifFrameCount = 0 then
      { err := some "no frames in GIF", file := env.initFile, etag := none }
    else if ¬env.createOk then
      { err := some "create error", file := env.initFile, etag := none }
    else encodeFinish h env

/-- Embedding of `generateMacro(m, cachePath)`: resolve the template path,
open it, dispatch `.gif` to `generateMacroGIF`, otherwise decode the still
image, render (`memedraw.Draw`, pure), create the destination file and
encode by extension (`.jpg`/`.jpeg` lossy, `.png` lossless, anything else an
error after the file was created, so the deferred handler removes it). -/
def generateMacro (h : List ℕ → String) (env : GenEnv) : GenResult :=
  match env.templatePathRes with
  | .error e => { err := some e, file := env.initFile, etag := none }
  | .ok tp =>
    if ¬env.openOk then { err := some "open error", file := env.initFile, etag := none }
    else if fileExt tp = ".gif" then generateMacroGIF h env
    else
      match env.decodeRes with
      | .error e => { err := some e, file := env.initFile, etag := none }
      | .ok _ =>
        if ¬env.createOk then { err := some "create error", file := env.initFile, etag := none }
        else if fileExt tp = ".jpg" ∨ fileExt tp = ".jpeg" then encodeFinish h env
        else if fileExt tp = ".png" then encodeFinish h env
        else { err := some ("unknown extension: " ++ fileExt tp), file := none, etag := none }

/-- An HTTP response of `serveContentMacro`: an error status, or a file
served with `Cache-Control` and the ETag found in `imageFileEtags` (absent
when no tag is recorded for the path). -/
inductive Response where
  | fail (msg : String) (status : ℕ)
  | fileWithTag (path : String) (etag : Option String)
deriving DecidableEq, Repr

/-- Environment of one `serveContentMacro` request: the request method, the
outcome of the id parse (`strconv.Atoi` over the trimmed path) and of the
`db.Macro`/`db.CachePath` lookups, the requested extension, the `os.Stat`
view of the disk, the `imageFileEtags` map, and the outcome a generation
would have (`.ok tag` meaning `generateMacro` succeeds recording `tag`). -/
structure ServeEnv where
  method : String
  idOk : Bool
  macroRes : Except String Unit
  cachePathRes : Except String String
  ext : String
  fileOnDisk : String → Bool
  etags : String → Option String
  genRes : Except String String

/-- Embedding of `serveContentMacro`: reject non-GET and bad ids, resolve the
macro and its cache path, require the requested extension to match, then
serve the existing file with its recorded ETag (cache hit), or run the
generation under `macroGenerationSingleFlight.Do` and serve the fresh file.
The second component counts renderer invocations made by this request. -/
def serveContentMacro (env : ServeEnv) : Response × ℕ :=
  if env.method ≠ "GET" then (.fail "method not allowed" 405, 0)
  else if ¬env.idOk then (.fail "invalid id" 400, 0)
  else
    match env.macroRes with
    | .error e => (.fail e 404, 0)
    | .ok _ =>
      match env.cachePathRes with
      | .error e => (.fail e 500, 0)
      | .ok cachePath =>
        if env.ext ≠ "" ∧ ¬(hasSuffix cachePath env.ext) then
          (.fail "wrong file extension" 400, 0)
        else if env.fileOnDisk cachePath then
          (.fileWithTag cachePath (env.etags cachePath), 0)
        else
          match env.genRes with
          | .error e => (.fail e 500, 1)
          | .ok tag => (.fileWithTag cachePath (some tag), 1)

/-! Concurrency model of the cache-miss path of `serveContentMacro` for a
single cache key.  The phases a request passes through are the statements of
the handler: the `os.Stat` probe, then (on a miss)
`macroGenerationSingleFlight.Do`.  The dedup primitive itself is
`tailscale.com/util/singleflight`, an external dependency not in this
repository; it is modelled from the spec: a map from key to a shared
awaitable result slot — the first caller for a key creates the slot and
performs the work, subsequent callers for the same key await the same slot,
and the slot is removed once settled so future requests start a fresh
attempt.  Rendering is deterministic, so every execution of the generator
yields the one outcome `gen` (`.ok etag` or `.error msg`). -/

deriving instance DecidableEq for Except

/-- Phase of one request: not yet statted, statted a miss, leading the
in-flight generation, awaiting it, or finished with a result. -/
inductive Phase where
  | ready
  | missed
  | leading
  | waiting
  | finished (r : Except String String)
deriving DecidableEq, Repr

/-- Modelled from the spec: the shared state for one cache key — each
request's phase, the file on disk with its recorded ETag (`none` while no
generation has succeeded), the singleflight slot (leader and waiters), and
how many times the renderer has executed. -/
structure SFState where
  callers : List Phase
  fileTag : Option String
  flight : Option (ℕ × List ℕ)
  renders : ℕ
deriving DecidableEq, Repr

/-- A scheduler step: which request performs its next atomic action. -/
inductive SFStep where
  | stat (i : ℕ)
  | enter (i : ℕ)
  | finish (i : ℕ)
deriving DecidableEq, Repr

/-- Mark every waiter of a settled flight as finished with the shared
result. -/
def settleWaiters (cs : List Phase) (ws : List ℕ) (r : Except String String) : List Phase :=
  ws.foldl (fun acc w => acc.set w (.finished r)) cs

/-- Modelled from the spec: one atomic action of request `i`.
`stat`: probe the disk; a present file is a cache hit served with its
recorded ETag, otherwise the request proceeds to the dedup region.
`enter`: call `Do`; an empty slot makes `i` the leader, otherwise `i` joins
the waiters.  `finish`: the leader's generation completes with the
deterministic outcome `gen`, the renderer having run once; on success the
file and its ETag appear on disk, the leader and all waiters observe `gen`,
and the slot is removed.  Steps whose precondition fails do nothing. -/
def sfStep (gen : Except String String) (s : SFState) : SFStep → SFState
  | .stat i =>
    match s.callers.get? i with
    | some .ready =>
      match s.fileTag with
      | some tag => { s with callers := s.callers.set i (.finished (.ok tag)) }
      | none => { s with callers := s.callers.set i .missed }
    | _ => s
  | .enter i =>
    match s.callers.get? i with
    | some .missed =>
      match s.flight with
      | none => { s with callers := s.callers.set i .leading, flight := some (i, []) }
      | some (l, ws) =>
        { s with callers := s.callers.set i .waiting, flight := some (l, ws ++ [i]) }
    | _ => s
  | .finish i =>
    match s.callers.get? i with
    | some .leading =>
      match s.flight with
      | some (l, ws) =>
        if l = i then
          { callers := settleWaiters (s.callers.set i (.finished gen)) ws gen
            fileTag := match gen with | .ok tag => some tag | .error _ => s.fileTag
            flight := none
            renders := s.renders + 1 }
        else s
      | none => s
    | _ => s

/-- The initial state for `k` concurrent requests to a not-yet-cached key. -/
def sfInit (k : ℕ) : SFState :=
  { callers := List.replicate k .ready, fileTag := none, flight := none, renders := 0 }

/-- Run a schedule of atomic actions. -/
def sfRun (gen : Except String String) (s : SFState) (steps : List SFStep) : SFState :=
  steps.foldl (sfStep gen) s

/-- The invariant every schedule maintains: any request in the leading phase
owns the flight slot (so there is at most one active generation for the key),
a recorded file tag comes from a successful generation outcome, and every
finished request observed the generation outcome. -/
def SFInv (gen : Except String String) (s : SFState) : Prop :=
  (∀ i : ℕ, s.callers.get? i = some .leading → ∃ ws, s.flight = some (i, ws))
  ∧ (∀ t : String, s.fileTag = some t → gen = .ok t)
  ∧ (∀ (i : ℕ) (r : Except String String),
      s.callers.get? i = some (.finished r) → r = gen)

/-! Embedding of the cache janitor `cleanMacroCache` (`store/store.go`): one
tick of the scan/evict loop over the listed directory entries. -/

/-- One directory entry as the janitor sees it: `regular` is
`e.Type().IsRegular()`, `statFails` models a `getAccessTime` error (the
entry is skipped), `accessAge` is `time.Since(atime)` and `size` is
`fi.Size()`. -/
structure CacheEntry where
  name : String
  regular : Bool
  statFails : Bool
  accessAge : ℤ
  size : ℤ
deriving DecidableEq, Repr

/-- Phase 2 of a tick: walk the entries accumulating the total size of the
surviving regular files and, in directory order, the candidates whose access
age exceeds `maxAccessAge`.  (The Go loop carries the pair left to right; the
recursion below returns the identical total and the identical candidate
list.) -/
def scanEntries (maxAccessAge : ℤ) : List CacheEntry → ℤ × List String
  | [] => (0, [])
  | e :: rest =>
    let acc := scanEntries maxAccessAge rest
    if ¬e.regular then acc
    else if e.statFails then acc
    else if e.accessAge > maxAccessAge then (acc.1 + e.size, e.name :: acc.2)
    else (acc.1 + e.size, acc.2)

/-- Embedding of one tick of `cleanMacroCache`: list the entries, select
candidates by access age while accumulating the total size, and return the
paths removed — none when the total size does not exceed `minPruneBytes` or
there are no candidates, otherwise every candidate. -/
def cleanMacroCacheTick (minPruneBytes maxAccessAge : ℤ) (es : List CacheEntry) :
    List String :=
  let scan := scanEntries maxAccessAge es
  if scan.1 ≤ minPruneBytes ∨ scan.2 = [] then [] else scan.2

/-- The total size of the cache as the janitor measures it: the sizes of the
regular entries whose access time could be read. -/
def survivingSize (es : List CacheEntry) : ℤ :=
  ((es.filter (fun e => e.regular && !e.statFails)).map CacheEntry.size).sum

/-! Concrete fixtures used by the witnesses below. -/

/-- A text line with two non-tweened areas of different widths (the worked
example of the spec: 4 frames, 2 areas). -/
def sampleLine2 : TextLine :=
  { Text := "hi", Field := [⟨0, 0, 1/2, false⟩, ⟨1, 1, 1/4, false⟩], Start := 0, End := 0 }

/-- A text line with two tweened areas. -/
def sampleTween : TextLine :=
  { Text := "hi", Field := [⟨0, 0, 0, true⟩, ⟨1, 1, 0, true⟩], Start := 0, End := 0 }

/-- A text line with a single area and a proper visibility window. -/
def sampleLine1 : TextLine :=
  { Text := "hi", Field := [⟨0, 0, 1/2, false⟩], Start := 1/2, End := 3/4 }

/-- A request environment whose cache file already exists (the ETag map holds
a tag for it) and whose generation — were it reached — would fail. -/
def sampleServeEnv : ServeEnv :=
  { method := "GET"
    idOk := true
    macroRes := .ok ()
    cachePathRes := .ok "/cache/1.png"
    ext := ".png"
    fileOnDisk := fun _ => true
    etags := fun _ => some "\"abc\""
    genRes := .error "boom" }

/-- A cache directory with one stale large file and one freshly accessed
file. -/
def sampleEntries : List CacheEntry :=
  [⟨"old.gif", true, false, 100, 600⟩, ⟨"new.png", true, false, 1, 600⟩]

/-- A generation environment in which every step succeeds and the encoder
writes the bytes `[1, 2, 3]` for a `.png` template. -/
def sampleGenEnv : GenEnv :=
  { templatePathRes := .ok "/tpl/7.png"
    openOk := true
    decodeRes := .ok ()
    gifDecodeRes := .ok ()
    gifFrameCount := 1
    createOk := true
    encodeRes := .ok [1, 2, 3]
    closeOk := true
    initFile := none }

/-- Helper for evaluating the rational ceilings that `newFrames` computes
(Go's `math.Ceil` over exact values). -/
theorem ceil_toNat_eq (q : ℚ) (n : ℕ) (h1 : (n : ℚ) - 1 < q) (h2 : q ≤ (n : ℚ)) :
    (⌈q⌉).toNat = n := by
  have h : ⌈q⌉ = (n : ℤ) := by
    rw [Int.ceil_eq_iff]
    constructor
    · push_cast
      exact h1
    · push_cast
      exact h2
  rw [h]
  simp

/-- The band size `framesPerArea` is positive whenever the frame count and the
number of areas are. -/
theorem one_le_framesPerArea (F : ℕ) (line : TextLine) (hF : 1 ≤ F)
    (hN : 1 ≤ line.Field.length) : 1 ≤ (newFrames F line).framesPerArea := by
  have hq : (0 : ℚ) < (F : ℚ) / (line.Field.length : ℚ) := by
    apply div_pos
    · exact_mod_cast hF
    · exact_mod_cast hN
  have hc := Int.ceil_pos.mpr hq
  simp only [newFrames]
  omega

/-- C10: for every frame count `F ≥ 1` and every `TextLine` with at least
one Area, the frame scheduler is total: `framesPerArea = ceil(F/numAreas)` is
at least 1, the divisor `fpa` carried by every per-frame view is nonzero, and
the active index and the cyclic-next index used for tweening are both
strictly below the number of Areas, so scheduling cannot divide by zero or
index out of range at any frame index. -/
theorem frame_scheduler_total (F : ℕ) (line : TextLine) (hF : 1 ≤ F)
    (hN : 1 ≤ line.Field.length) :
    1 ≤ (newFrames F line).framesPerArea
    ∧ ∀ i : ℕ,
        1 ≤ ((newFrames F line).frame i).fpa
        ∧ ((newFrames F line).frame i).pos < line.Field.length
        ∧ ((((newFrames F line).frame i).i + ((newFrames F line).frame i).fpa) /
              ((newFrames F line).frame i).fpa) % line.Field.length
            < line.Field.length := by
  have hfpa := one_le_framesPerArea F line hF hN
  refine ⟨hfpa, fun i => ?_⟩
  by_cases h1 : line.Field.length = 1
  · simp [frames.frame, newFrames, h1]
  · have hlen : 0 < line.Field.length := hN
    simp only [frames.frame, newFrames, if_neg h1]
    exact ⟨hfpa, Nat.mod_lt _ hlen, Nat.mod_lt _ hlen⟩

/-- C4: with a single Area, `resolve` returns that Area unchanged at every
frame index; with `N ≥ 2` non-tweened Areas, `framesPerArea = ceil(F/N)` and
`resolve(i) = Field[(i / framesPerArea) % N]`, so the frame indices fall into
contiguous bands of size `framesPerArea` on which `resolve` is constant. -/
theorem frame_resolve_bands (F : ℕ) (line : TextLine) (hF : 1 ≤ F) :
    (line.Field.length = 1 →
      ∀ i : ℕ, ((newFrames F line).frame i).area = line.Field.getD 0 default)
    ∧ (2 ≤ line.Field.length → (∀ a ∈ line.Field, a.Tween = false) →
      (newFrames F line).framesPerArea = (⌈(F : ℚ) / (line.Field.length : ℚ)⌉).toNat
      ∧ (∀ i : ℕ, ((newFrames F line).frame i).area
          = line.Field.getD ((i / (newFrames F line).framesPerArea) % line.Field.length)
              default)
      ∧ ∀ i j : ℕ,
          i / (newFrames F line).framesPerArea = j / (newFrames F line).framesPerArea →
          ((newFrames F line).frame i).area = ((newFrames F line).frame j).area) := by
  constructor
  · intro h1 i
    simp [frames.frame, newFrames, h1, frame.area]
  · intro h2 hnt
    have h1 : ¬ line.Field.length = 1 := by omega
    have hres : ∀ i : ℕ, ((newFrames F line).frame i).area
        = line.Field.getD ((i / (newFrames F line).framesPerArea) % line.Field.length)
            default := by
      intro i
      have hpos : (i / (newFrames F line).framesPerArea) % line.Field.length
          < line.Field.length := Nat.mod_lt _ (by omega)
      have hmem : line.Field.getD
          ((i / (newFrames F line).framesPerArea) % line.Field.length) default
          ∈ line.Field := by
        rw [List.getD_eq_getElem _ _ hpos]
        exact List.getElem_mem _
      have htw := hnt _ hmem
      simp only [frames.frame, newFrames, if_neg h1, frame.area] at htw ⊢
      simp only [List.getD, List.get?_eq_getElem?] at htw
      simp [htw]
    refine ⟨rfl, hres, fun i j hij => ?_⟩
    rw [hres i, hres j, hij]

/-- C5: with `N ≥ 2` Areas and the active Area's tween flag set, `resolve(i)`
at a band boundary (`i % framesPerArea = 0`) is exactly the active Area, and
otherwise it is the active Area with only X and Y replaced by the linear
interpolation toward the next Area in cyclic order (index
`(activeIndex + 1) % N`), by the fraction `(i % framesPerArea) /
framesPerArea`. -/
theorem frame_tween_interpolation (F : ℕ) (line : TextLine) (i : ℕ)
    (hF : 1 ≤ F) (hN : 2 ≤ line.Field.length)
    (htw : (line.Field.getD
        ((i / (newFrames F line).framesPerArea) % line.Field.length) default).Tween
      = true) :
    (i % (newFrames F line).framesPerArea = 0 →
      ((newFrames F line).frame i).area
        = line.Field.getD ((i / (newFrames F line).framesPerArea) % line.Field.length)
            default)
    ∧ (i % (newFrames F line).framesPerArea ≠ 0 →
      ((newFrames F line).frame i).area =
        { line.Field.getD ((i / (newFrames F line).framesPerArea) % line.Field.length)
            default with
          X := (line.Field.getD
                ((i / (newFrames F line).framesPerArea) % line.Field.length) default).X
            + ((i % (newFrames F line).framesPerArea : ℕ) : ℚ)
                / ((newFrames F line).framesPerArea : ℚ)
              * ((line.Field.getD
                    (((i / (newFrames F line).framesPerArea) % line.Field.length + 1)
                      % line.Field.length) default).X
                - (line.Field.getD
                    ((i / (newFrames F line).framesPerArea) % line.Field.length)
                    default).X),
          Y := (line.Field.getD
                ((i / (newFrames F line).framesPerArea) % line.Field.length) default).Y
            + ((i % (newFrames F line).framesPerArea : ℕ) : ℚ)
                / ((newFrames F line).framesPerArea : ℚ)
              * ((line.Field.getD
                    (((i / (newFrames F line).framesPerArea) % line.Field.length + 1)
                      % line.Field.length) default).Y
                - (line.Field.getD
                    ((i / (newFrames F line).framesPerArea) % line.Field.length)
                    default).Y) }) := by
  have h1 : ¬ line.Field.length = 1 := by omega
  have hfpa := one_le_framesPerArea F line hF (by omega)
  have hframe : (newFrames F line).frame i
      = ⟨line, (i / (newFrames F line).framesPerArea) % line.Field.length, i,
          (newFrames F line).framesPerArea⟩ := by
    simp [frames.frame, newFrames, h1]
  have hidx : ((i + (newFrames F line).framesPerArea) / (newFrames F line).framesPerArea)
        % line.Field.length
      = ((i / (newFrames F line).framesPerArea) % line.Field.length + 1)
        % line.Field.length := by
    rw [Nat.add_div_right _ (by omega : 0 < (newFrames F line).framesPerArea)]
    exact (Nat.mod_add_mod _ _ _).symm
  constructor
  · intro hrem
    rw [hframe]
    simp only [frame.area]
    simp [htw, hrem]
  · intro hrem
    rw [hframe]
    simp only [frame.area]
    simp only [htw, Bool.not_true, Bool.false_eq_true, if_false, hrem, ite_not,
      if_neg hrem, hidx]
    simp only [Area.mk.injEq]
    refine ⟨by ring, by ring, trivial, trivial⟩

/-- C6: `visibleAt(i)` holds exactly when `start ≤ i ≤ end` for
`start = ceil(Start · F)` when `Start > 0` (0 otherwise) and
`end = ceil(End · F)` when `End > Start` (`F` otherwise); in particular
`Start = 0` and `End = 0` make the line visible at every index `0..F-1`. -/
theorem visibleAt_window (F : ℕ) (line : TextLine) (hF : 1 ≤ F)
    (hS0 : 0 ≤ line.Start) (hS1 : line.Start ≤ 1)
    (hE0 : 0 ≤ line.End) (hE1 : line.End ≤ 1) :
    (∀ i : ℕ, (newFrames F line).visibleAt i = true ↔
      ((if 0 < line.Start then (⌈line.Start * (F : ℚ)⌉).toNat else 0) ≤ i
        ∧ i ≤ if line.Start < line.End then (⌈line.End * (F : ℚ)⌉).toNat else F))
    ∧ (line.Start = 0 → line.End = 0 → ∀ i : ℕ, i < F →
        (newFrames F line).visibleAt i = true) := by
  constructor
  · intro i
    simp only [frames.visibleAt, newFrames, decide_eq_true_eq, gt_iff_lt]
  · intro hs he i hi
    simp only [frames.visibleAt, newFrames, hs, he, gt_iff_lt, lt_irrefl, if_false,
      decide_eq_true_eq]
    omega

/-- The band size of a schedule, evaluated (the projection is definitional). -/
theorem framesPerArea_eq (F : ℕ) (line : TextLine) (n : ℕ)
    (h : (⌈(F : ℚ) / (line.Field.length : ℚ)⌉).toNat = n) :
    (newFrames F line).framesPerArea = n := h

/-- The band size for the 4-frame, 2-area fixture is 2. -/
theorem sampleLine2_fpa : (newFrames 4 sampleLine2).framesPerArea = 2 := by
  apply framesPerArea_eq
  rw [show sampleLine2.Field.length = 2 from rfl]
  exact ceil_toNat_eq _ 2 (by norm_num) (by norm_num)

/-- Witness for C4 at the spec's worked example (`F = 4`, two areas, no
tween): frame 1 resolves to `Field[0]` and frame 2 to `Field[1]`. -/
theorem frame_resolve_bands_witness :
    ((newFrames 4 sampleLine2).frame 1).area = ⟨0, 0, 1/2, false⟩
    ∧ ((newFrames 4 sampleLine2).frame 2).area = ⟨1, 1, 1/4, false⟩ := by
  obtain ⟨-, hres, -⟩ :=
    (frame_resolve_bands 4 sampleLine2 (by norm_num)).2 (by decide) (by decide)
  rw [hres 1, hres 2, sampleLine2_fpa]
  exact ⟨rfl, rfl⟩

/-- Witness for C10 at the same fixture, instantiated at frame 5. -/
theorem frame_scheduler_total_witness :
    1 ≤ (newFrames 4 sampleLine2).framesPerArea
    ∧ 1 ≤ ((newFrames 4 sampleLine2).frame 5).fpa
    ∧ ((newFrames 4 sampleLine2).frame 5).pos < sampleLine2.Field.length
    ∧ ((((newFrames 4 sampleLine2).frame 5).i + ((newFrames 4 sampleLine2).frame 5).fpa) /
          ((newFrames 4 sampleLine2).frame 5).fpa) % sampleLine2.Field.length
        < sampleLine2.Field.length := by
  obtain ⟨h1, h2⟩ := frame_scheduler_total 4 sampleLine2 (by norm_num) (by decide)
  exact ⟨h1, h2 5⟩

/-- The band size for the 4-frame tweened fixture is 2. -/
theorem sampleTween_fpa : (newFrames 4 sampleTween).framesPerArea = 2 := by
  apply framesPerArea_eq
  rw [show sampleTween.Field.length = 2 from rfl]
  exact ceil_toNat_eq _ 2 (by norm_num) (by norm_num)

/-- Witness for C5: on the tweened fixture, frame 2 sits on a band boundary
and resolves to `Field[1]` exactly, while frame 1 interpolates halfway from
`Field[0]` toward `Field[1]`. -/
theorem frame_tween_interpolation_witness :
    ((newFrames 4 sampleTween).frame 2).area = ⟨1, 1, 0, true⟩
    ∧ ((newFrames 4 sampleTween).frame 1).area = ⟨1/2, 1/2, 0, true⟩ := by
  constructor
  · have h := (frame_tween_interpolation 4 sampleTween 2 (by norm_num) (by decide)
      (by rw [sampleTween_fpa]; rfl)).1 (by rw [sampleTween_fpa])
    rw [h, sampleTween_fpa]
    rfl
  · have h := (frame_tween_interpolation 4 sampleTween 1 (by norm_num) (by decide)
      (by rw [sampleTween_fpa]; rfl)).2 (by rw [sampleTween_fpa]; decide)
    rw [h, sampleTween_fpa]
    show Area.mk _ _ _ _ = _
    simp only [Area.mk.injEq]
    refine ⟨?_, ?_, rfl, rfl⟩ <;> norm_num [sampleTween]

/-- Witness for C6 on the windowed fixture (`Start = 1/2`, `End = 3/4`,
`F = 4`): frame 2 is visible and frame 1 is not. -/
theorem visibleAt_window_witness :
    (newFrames 4 sampleLine1).visibleAt 2 = true
    ∧ (newFrames 4 sampleLine1).visibleAt 1 = false := by
  have h := (visibleAt_window 4 sampleLine1 (by norm_num) (by norm_num [sampleLine1])
    (by norm_num [sampleLine1]) (by norm_num [sampleLine1]) (by norm_num [sampleLine1])).1
  have hs : (⌈sampleLine1.Start * ((4 : ℕ) : ℚ)⌉).toNat = 2 := by
    rw [show sampleLine1.Start = 1/2 from rfl]
    exact ceil_toNat_eq _ 2 (by norm_num) (by norm_num)
  have he : (⌈sampleLine1.End * ((4 : ℕ) : ℚ)⌉).toNat = 3 := by
    rw [show sampleLine1.End = 3/4 from rfl]
    exact ceil_toNat_eq _ 3 (by norm_num) (by norm_num)
  constructor
  · rw [h 2]
    rw [if_pos (by norm_num [sampleLine1] : (0 : ℚ) < sampleLine1.Start),
      if_pos (by norm_num [sampleLine1] : sampleLine1.Start < sampleLine1.End), hs, he]
    omega
  · have h1 := h 1
    rw [if_pos (by norm_num [sampleLine1] : (0 : ℚ) < sampleLine1.Start),
      if_pos (by norm_num [sampleLine1] : sampleLine1.Start < sampleLine1.End), hs, he] at h1
    have : ¬((newFrames 4 sampleLine1).visibleAt 1 = true) := by
      rw [h1]
      omega
    simpa using this

/-- Every per-frame view carries the scheduled line itself. -/
theorem frame_line (F : ℕ) (line : TextLine) (i : ℕ) :
    ((newFrames F line).frame i).line = line := by
  simp only [frames.frame]
  split <;> rfl

/-- On the two-area fixture, frame 2's view is area index 1 with divisor 2. -/
theorem sampleLine2_frame2 :
    (newFrames 4 sampleLine2).frame 2 = ⟨sampleLine2, 1, 2, 2⟩ := by
  simp only [frames.frame, newFrames]
  rw [if_neg (by decide : ¬sampleLine2.Field.length = 1)]
  have := sampleLine2_fpa
  simp only [newFrames] at this
  rw [this]
  rfl

/-- On the two-area fixture, frame 0's view is area index 0 with divisor 2. -/
theorem sampleLine2_frame0 :
    (newFrames 4 sampleLine2).frame 0 = ⟨sampleLine2, 0, 0, 2⟩ := by
  simp only [frames.frame, newFrames]
  rw [if_neg (by decide : ¬sampleLine2.Field.length = 1)]
  have := sampleLine2_fpa
  simp only [newFrames] at this
  rw [this]
  rfl

/-- Layout of the two-area fixture at frame 2 (active area index 1). -/
theorem sampleLine2_layout2 :
    overlayLayout ((newFrames 4 sampleLine2).frame 2) 100 100 = some ⟨50, 100, 100⟩ := by
  rw [sampleLine2_frame2]
  rw [overlayLayout, if_neg (by decide : ¬trimSpace (frame.mk sampleLine2 1 2 2).line.Text = "")]
  rw [show (frame.mk sampleLine2 1 2 2).area = ⟨1, 1, 1/4, false⟩ from rfl]
  norm_num [oneForZero, sampleLine2]

/-- Layout of the two-area fixture at frame 0 (active area index 0). -/
theorem sampleLine2_layout0 :
    overlayLayout ((newFrames 4 sampleLine2).frame 0) 100 100 = some ⟨50, 0, 0⟩ := by
  rw [sampleLine2_frame0]
  rw [overlayLayout, if_neg (by decide : ¬trimSpace (frame.mk sampleLine2 0 0 2).line.Text = "")]
  rw [show (frame.mk sampleLine2 0 0 2).area = ⟨0, 0, 1/2, false⟩ from rfl]
  norm_num [oneForZero, sampleLine2]

/-- Counterexample to C9: on the two-area fixture rendered at 100×100, frame
2's active area has width fraction 1/4 (so the claim predicts a wrap width of
25), but `overlayTextOnImage` wraps to 50 — the first area's width fraction
1/2 — because the code reads `tl.Field[0].Width`, not the resolved area's
width. -/
theorem overlay_wrap_width_counterexample :
    (overlayLayout ((newFrames 4 sampleLine2).frame 2) 100 100).map TextLayout.wrapWidth
      = some 50
    ∧ oneForZero (((newFrames 4 sampleLine2).frame 2).area).Width * 100 = 25
    ∧ (50 : ℚ) ≠ 25 := by
  refine ⟨?_, ?_, by norm_num⟩
  · rw [sampleLine2_layout2]
    rfl
  · rw [sampleLine2_frame2]
    rw [show (frame.mk sampleLine2 1 2 2).area = ⟨1, 1, 1/4, false⟩ from rfl]
    norm_num [oneForZero]

/-- C9 (amended): the word-wrap width equals the first Area's width fraction
multiplied by the image width (0 meaning the full image width), and it does
not vary with the frame index — a frame whose active Area is not the first is
still wrapped to the first Area's width. -/
theorem overlay_wrap_width_first_area (F : ℕ) (line : TextLine) (i j : ℕ)
    (dxBound dyBound : ℚ) (p q : TextLayout)
    (hp : overlayLayout ((newFrames F line).frame i) dxBound dyBound = some p)
    (hq : overlayLayout ((newFrames F line).frame j) dxBound dyBound = some q) :
    p.wrapWidth = oneForZero (line.Field.getD 0 default).Width * dxBound
    ∧ p.wrapWidth = q.wrapWidth := by
  rw [overlayLayout] at hp hq
  rw [frame_line] at hp hq
  by_cases ht : trimSpace line.Text = ""
  · rw [if_pos ht] at hp
    cases hp
  · rw [if_neg ht] at hp hq
    have hp2 := Option.some.inj hp
    have hq2 := Option.some.inj hq
    constructor
    · rw [← hp2]
    · rw [← hp2, ← hq2]

/-- Witness for the amended C9 on the two-area fixture: frames 0 and 2 share
the wrap width 50 = (1/2)·100 even though frame 2's active area is the
second. -/
theorem overlay_wrap_width_first_area_witness :
    (50 : ℚ) = oneForZero (sampleLine2.Field.getD 0 default).Width * 100
    ∧ (50 : ℚ) = (50 : ℚ) := by
  have h := overlay_wrap_width_first_area 4 sampleLine2 2 0 100 100 ⟨50, 100, 100⟩
    ⟨50, 0, 0⟩ sampleLine2_layout2 sampleLine2_layout0
  exact h

/-- Counterexample to C7: a 2-frame GIF on a 1-pixel canvas with background
color 0 whose first frame paints color 1 and carries the unknown disposal
value 0 (not one of `DisposalNone`/`Background`/`Previous`).  The claim says
an unknown disposal value makes frame 0's fully rendered pixels (`[some 1]`)
the backdrop of frame 1, but the pipeline's `default` arm resets the backdrop
to the plain background `[some 0]`. -/
theorem gif_disposal_default_counterexample :
    (0 : ℕ) ≠ disposalNone ∧ (0 : ℕ) ≠ disposalBackground ∧ (0 : ℕ) ≠ disposalPrevious
    ∧ overDraw (backdropChain (mkBackground 1 0) [[some 1], [some 1]] [0, 0] 0)
        ([[some 1], [some 1]].getD 0 []) = [some 1]
    ∧ backdropChain (mkBackground 1 0) [[some 1], [some 1]] [0, 0] 1 = mkBackground 1 0
    ∧ ¬ backdropChain (mkBackground 1 0) [[some 1], [some 1]] [0, 0] 1
        = overDraw (backdropChain (mkBackground 1 0) [[some 1], [some 1]] [0, 0] 0)
            ([[some 1], [some 1]].getD 0 []) := by
  decide

/-- C7 (amended): for every frame `i` that is not the last, frame `i+1`'s
backdrop is determined by frame `i`'s disposal method: `DisposalBackground`
yields the plain background; `DisposalPrevious` leaves the backdrop
unchanged; `DisposalNone` makes frame `i`'s rendered pixels (its backdrop
with the raw frame composited over it, before the text overlay) the next
backdrop; and any unknown disposal value yields the plain background, like
`DisposalBackground`. -/
theorem gif_backdrop_disposal (bg : Img) (frameImgs : List Img) (disposal : List ℕ)
    (i : ℕ) :
    (disposal.getD i 0 = disposalBackground →
      backdropChain bg frameImgs disposal (i + 1) = bg)
    ∧ (disposal.getD i 0 = disposalPrevious →
      backdropChain bg frameImgs disposal (i + 1) = backdropChain bg frameImgs disposal i)
    ∧ (disposal.getD i 0 = disposalNone →
      backdropChain bg frameImgs disposal (i + 1)
        = overDraw (backdropChain bg frameImgs disposal i) (frameImgs.getD i []))
    ∧ (disposal.getD i 0 ≠ disposalBackground → disposal.getD i 0 ≠ disposalPrevious →
        disposal.getD i 0 ≠ disposalNone →
      backdropChain bg frameImgs disposal (i + 1) = bg) := by
  refine ⟨fun h => ?_, fun h => ?_, fun h => ?_, fun h1 h2 h3 => ?_⟩
  · simp only [backdropChain]
    rw [h]
    simp [disposalBackground, disposalPrevious, disposalNone]
  · simp only [backdropChain]
    rw [h]
    simp [disposalBackground, disposalPrevious, disposalNone]
  · simp only [backdropChain]
    rw [h]
    simp [disposalBackground, disposalPrevious, disposalNone]
  · simp only [backdropChain]
    rw [if_neg h1, if_neg h2, if_neg h3]

/-- Witness for the amended C7: on the counterexample's GIF, `DisposalNone`
on frame 0 would carry `[some 1]` forward, while `DisposalPrevious` keeps the
background backdrop. -/
theorem gif_backdrop_disposal_witness :
    backdropChain (mkBackground 1 0) [[some 1], [some 1]] [disposalNone, 0] 1
      = overDraw (backdropChain (mkBackground 1 0) [[some 1], [some 1]] [disposalNone, 0] 0)
          ([[some 1], [some 1]].getD 0 [])
    ∧ backdropChain (mkBackground 1 0) [[some 1], [some 1]] [disposalPrevious, 0] 1
      = backdropChain (mkBackground 1 0) [[some 1], [some 1]] [disposalPrevious, 0] 0 := by
  constructor
  · exact (gif_backdrop_disposal (mkBackground 1 0) [[some 1], [some 1]]
      [disposalNone, 0] 0).2.2.1 (by decide)
  · exact (gif_backdrop_disposal (mkBackground 1 0) [[some 1], [some 1]]
      [disposalPrevious, 0] 0).2.1 (by decide)

/-- C1: when the cache file already exists at its deterministic path, the
request is answered with that file and the ETag previously recorded for the
path, and the renderer is never invoked (zero renderer calls). -/
theorem serveContentMacro_cache_hit (env : ServeEnv) (p : String)
    (hm : env.method = "GET") (hid : env.idOk = true)
    (hmac : env.macroRes = .ok ()) (hcp : env.cachePathRes = .ok p)
    (hext : env.ext = "" ∨ hasSuffix p env.ext = true)
    (hfile : env.fileOnDisk p = true) :
    serveContentMacro env = (.fileWithTag p (env.etags p), 0) := by
  rcases hext with he | he <;>
    simp [serveContentMacro, hm, hid, hmac, hcp, hfile, he]

/-- Witness for C1: on the concrete hit environment the response serves the
cached file with its recorded ETag and performs zero renderer calls. -/
theorem serveContentMacro_cache_hit_witness :
    serveContentMacro sampleServeEnv
      = (.fileWithTag "/cache/1.png" (some "\"abc\""), 0) :=
  serveContentMacro_cache_hit sampleServeEnv "/cache/1.png" rfl rfl rfl rfl
    (Or.inr (by decide)) rfl

/-- C2: an ETag — the quoted hex digest of exactly the bytes written to the
destination file — is recorded if and only if generation succeeds; on any
failure no file is left at the cache path (a partial file is deleted) and no
ETag is recorded, so a later request sees a clean miss. -/
theorem generateMacro_etag_iff (h : List ℕ → String) (env : GenEnv)
    (hInit : env.initFile = none) :
    ((generateMacro h env).err = none ↔
      ∃ bs : List ℕ, (generateMacro h env).file = some bs
        ∧ (generateMacro h env).etag = some (formatEtag (h bs)))
    ∧ ((generateMacro h env).err ≠ none →
      (generateMacro h env).file = none ∧ (generateMacro h env).etag = none) := by
  obtain ⟨tp, op, dec, gdec, n, cr, enc, cl, init⟩ := env
  simp only at hInit
  subst hInit
  rcases tp with e | tp
  · simp [generateMacro]
  · rcases op with _ | _
    · simp [generateMacro]
    · rcases dec with e | u
      · by_cases hg : fileExt tp = ".gif"
        · rcases gdec with e2 | u2
          · simp [generateMacro, generateMacroGIF, hg]
          · by_cases hn : n = 0
            · simp [generateMacro, generateMacroGIF, hg, hn]
            · rcases cr with _ | _
              · simp [generateMacro, generateMacroGIF, hg, hn]
              · rcases enc with e3 | bs
                · simp [generateMacro, generateMacroGIF, encodeFinish, hg, hn]
                · rcases cl with _ | _
                  · simp [generateMacro, generateMacroGIF, encodeFinish, hg, hn]
                  · simp [generateMacro, generateMacroGIF, encodeFinish, hg, hn]
        · simp [generateMacro, hg]
      · by_cases hg : fileExt tp = ".gif"
        · rcases gdec with e2 | u2
          · simp [generateMacro, generateMacroGIF, hg]
          · by_cases hn : n = 0
            · simp [generateMacro, generateMacroGIF, hg, hn]
            · rcases cr with _ | _
              · simp [generateMacro, generateMacroGIF, hg, hn]
              · rcases enc with e3 | bs
                · simp [generateMacro, generateMacroGIF, encodeFinish, hg, hn]
                · rcases cl with _ | _
                  · simp [generateMacro, generateMacroGIF, encodeFinish, hg, hn]
                  · simp [generateMacro, generateMacroGIF, encodeFinish, hg, hn]
        · rcases cr with _ | _
          · simp [generateMacro, hg]
          · by_cases hj : fileExt tp = ".jpg" ∨ fileExt tp = ".jpeg"
            · rcases enc with e3 | bs
              · simp [generateMacro, encodeFinish, hg, hj]
              · rcases cl with _ | _
                · simp [generateMacro, encodeFinish, hg, hj]
                · simp [generateMacro, encodeFinish, hg, hj]
            · by_cases hp : fileExt tp = ".png"
              · rcases enc with e3 | bs
                · simp [generateMacro, encodeFinish, hg, hj, hp]
                · rcases cl with _ | _
                  · simp [generateMacro, encodeFinish, hg, hj, hp]
                  · simp [generateMacro, encodeFinish, hg, hj, hp]
              · simp [generateMacro, hg, hj, hp]

/-- Witness for C2 at the all-success environment: the generator reports no
error, leaves the encoded bytes in the cache file and records the quoted
digest of exactly those bytes. -/
theorem generateMacro_etag_iff_witness :
    ((generateMacro (fun _ => "ab") sampleGenEnv).err = none ↔
      ∃ bs : List ℕ, (generateMacro (fun _ => "ab") sampleGenEnv).file = some bs
        ∧ (generateMacro (fun _ => "ab") sampleGenEnv).etag
            = some (formatEtag ((fun _ => "ab") bs)))
    ∧ ((generateMacro (fun _ => "ab") sampleGenEnv).err ≠ none →
      (generateMacro (fun _ => "ab") sampleGenEnv).file = none
        ∧ (generateMacro (fun _ => "ab") sampleGenEnv).etag = none) :=
  generateMacro_etag_iff (fun _ => "ab") sampleGenEnv rfl

/-- The scan phase computes the surviving total size, and its candidate list
holds exactly the names of surviving entries whose access age exceeds the
threshold. -/
theorem scanEntries_spec (maxA : ℤ) (es : List CacheEntry) :
    (scanEntries maxA es).1 = survivingSize es
    ∧ ∀ nm : String, nm ∈ (scanEntries maxA es).2 ↔
        ∃ e ∈ es, e.name = nm ∧ e.regular = true ∧ e.statFails = false
          ∧ maxA < e.accessAge := by
  induction es with
  | nil => simp [scanEntries, survivingSize]
  | cons e rest ih =>
    obtain ⟨ih1, ih2⟩ := ih
    rcases hr : e.regular with _ | _
    · refine ⟨?_, fun nm => ?_⟩
      · simp only [scanEntries, hr]
        rw [show (if ¬false = true then scanEntries maxA rest
              else if e.statFails = true then scanEntries maxA rest
              else if e.accessAge > maxA then
                ((scanEntries maxA rest).1 + e.size, e.name :: (scanEntries maxA rest).2)
              else ((scanEntries maxA rest).1 + e.size, (scanEntries maxA rest).2))
            = scanEntries maxA rest by simp]
        rw [ih1]
        simp [survivingSize, hr]
      · simp only [scanEntries, hr]
        rw [show (if ¬false = true then scanEntries maxA rest
              else if e.statFails = true then scanEntries maxA rest
              else if e.accessAge > maxA then
                ((scanEntries maxA rest).1 + e.size, e.name :: (scanEntries maxA rest).2)
              else ((scanEntries maxA rest).1 + e.size, (scanEntries maxA rest).2))
            = scanEntries maxA rest by simp]
        rw [ih2 nm]
        constructor
        · rintro ⟨e2, he2, rest2⟩
          exact ⟨e2, List.mem_cons_of_mem _ he2, rest2⟩
        · rintro ⟨e2, he2, hnm, hreg, hstat, hage⟩
          rcases List.mem_cons.mp he2 with rfl | he3
          · rw [hr] at hreg
            cases hreg
          · exact ⟨e2, he3, hnm, hreg, hstat, hage⟩
    · rcases hs : e.statFails with _ | _
      · by_cases ha : maxA < e.accessAge
        · refine ⟨?_, fun nm => ?_⟩
          · simp only [scanEntries]
            rw [show (if ¬e.regular = true then scanEntries maxA rest
                  else if e.statFails = true then scanEntries maxA rest
                  else if e.accessAge > maxA then
                    ((scanEntries maxA rest).1 + e.size, e.name :: (scanEntries maxA rest).2)
                  else ((scanEntries maxA rest).1 + e.size, (scanEntries maxA rest).2))
                = ((scanEntries maxA rest).1 + e.size, e.name :: (scanEntries maxA rest).2)
              by simp [hr, hs, ha]]
            rw [show ((scanEntries maxA rest).1 + e.size,
                e.name :: (scanEntries maxA rest).2).1 = (scanEntries maxA rest).1 + e.size
              from rfl, ih1]
            simp [survivingSize, hr, hs]
            ring
          · simp only [scanEntries]
            rw [show (if ¬e.regular = true then scanEntries maxA rest
                  else if e.statFails = true then scanEntries maxA rest
                  else if e.accessAge > maxA then
                    ((scanEntries maxA rest).1 + e.size, e.name :: (scanEntries maxA rest).2)
                  else ((scanEntries maxA rest).1 + e.size, (scanEntries maxA rest).2))
                = ((scanEntries maxA rest).1 + e.size, e.name :: (scanEntries maxA rest).2)
              by simp [hr, hs, ha]]
            constructor
            · intro hin
              rcases List.mem_cons.mp hin with rfl | hin2
              · exact ⟨e, List.mem_cons_self _ _, rfl, hr, hs, ha⟩
              · obtain ⟨e2, he2, rest2⟩ := (ih2 nm).mp hin2
                exact ⟨e2, List.mem_cons_of_mem _ he2, rest2⟩
            · rintro ⟨e2, he2, hnm, hreg, hstat, hage⟩
              rcases List.mem_cons.mp he2 with rfl | he3
              · exact List.mem_cons.mpr (Or.inl hnm.symm)
              · exact List.mem_cons.mpr
                  (Or.inr ((ih2 nm).mpr ⟨e2, he3, hnm, hreg, hstat, hage⟩))
        · refine ⟨?_, fun nm => ?_⟩
          · simp only [scanEntries]
            rw [show (if ¬e.regular = true then scanEntries maxA rest
                  else if e.statFails = true then scanEntries maxA rest
                  else if e.accessAge > maxA then
                    ((scanEntries maxA rest).1 + e.size, e.name :: (scanEntries maxA rest).2)
                  else ((scanEntries maxA rest).1 + e.size, (scanEntries maxA rest).2))
                = ((scanEntries maxA rest).1 + e.size, (scanEntries maxA rest).2)
              by simp [hr, hs, ha]]
            rw [show ((scanEntries maxA rest).1 + e.size,
                (scanEntries maxA rest).2).1 = (scanEntries maxA rest).1 + e.size
              from rfl, ih1]
            simp [survivingSize, hr, hs]
            ring
          · simp only [scanEntries]
            rw [show (if ¬e.regular = true then scanEntries maxA rest
                  else if e.statFails = true then scanEntries maxA rest
                  else if e.accessAge > maxA then
                    ((scanEntries maxA rest).1 + e.size, e.name :: (scanEntries maxA rest).2)
                  else ((scanEntries maxA rest).1 + e.size, (scanEntries maxA rest).2))
                = ((scanEntries maxA rest).1 + e.size, (scanEntries maxA rest).2)
              by simp [hr, hs, ha]]
            rw [show ((scanEntries maxA rest).1 + e.size,
                (scanEntries maxA rest).2).2 = (scanEntries maxA rest).2 from rfl]
            rw [ih2 nm]
            constructor
            · rintro ⟨e2, he2, rest2⟩
              exact ⟨e2, List.mem_cons_of_mem _ he2, rest2⟩
            · rintro ⟨e2, he2, hnm, hreg, hstat, hage⟩
              rcases List.mem_cons.mp he2 with rfl | he3
              · exact absurd hage ha
              · exact ⟨e2, he3, hnm, hreg, hstat, hage⟩
      · refine ⟨?_, fun nm => ?_⟩
        · simp only [scanEntries]
          rw [show (if ¬e.regular = true then scanEntries maxA rest
                else if e.statFails = true then scanEntries maxA rest
                else if e.accessAge > maxA then
                  ((scanEntries maxA rest).1 + e.size, e.name :: (scanEntries maxA rest).2)
                else ((scanEntries maxA rest).1 + e.size, (scanEntries maxA rest).2))
              = scanEntries maxA rest by simp [hr, hs]]
          rw [ih1]
          simp [survivingSize, hr, hs]
        · simp only [scanEntries]
          rw [show (if ¬e.regular = true then scanEntries maxA rest
                else if e.statFails = true then scanEntries maxA rest
                else if e.accessAge > maxA then
                  ((scanEntries maxA rest).1 + e.size, e.name :: (scanEntries maxA rest).2)
                else ((scanEntries maxA rest).1 + e.size, (scanEntries maxA rest).2))
              = scanEntries maxA rest by simp [hr, hs]]
          rw [ih2 nm]
          constructor
          · rintro ⟨e2, he2, rest2⟩
            exact ⟨e2, List.mem_cons_of_mem _ he2, rest2⟩
          · rintro ⟨e2, he2, hnm, hreg, hstat, hage⟩
            rcases List.mem_cons.mp he2 with rfl | he3
            · rw [hs] at hstat
              cases hstat
            · exact ⟨e2, he3, hnm, hreg, hstat, hage⟩

/-- C8: a janitor tick deletes a cache file only when both the surviving
total size exceeds `minPruneBytes` and that file's access age exceeds
`maxAccessAge`; when the total size does not exceed the threshold, or no
file is stale, nothing is deleted — even if every file is stale, or the
oversized cache holds only fresh files. -/
theorem cleanMacroCache_eviction (minB maxA : ℤ) (es : List CacheEntry) :
    (survivingSize es ≤ minB → cleanMacroCacheTick minB maxA es = [])
    ∧ ((∀ e ∈ es, e.regular = true → e.statFails = false → e.accessAge ≤ maxA) →
        cleanMacroCacheTick minB maxA es = [])
    ∧ ∀ nm ∈ cleanMacroCacheTick minB maxA es,
        minB < survivingSize es
        ∧ ∃ e ∈ es, e.name = nm ∧ e.regular = true ∧ e.statFails = false
            ∧ maxA < e.accessAge := by
  obtain ⟨h1, h2⟩ := scanEntries_spec maxA es
  refine ⟨?_, ?_, ?_⟩
  · intro hsmall
    rw [← h1] at hsmall
    simp [cleanMacroCacheTick, hsmall]
  · intro hfresh
    have hcand : (scanEntries maxA es).2 = [] := by
      rcases hne : (scanEntries maxA es).2 with _ | ⟨nm, restc⟩
      · rfl
      · have hmem : nm ∈ (scanEntries maxA es).2 := by
          rw [hne]
          exact List.mem_cons_self _ _
        obtain ⟨e, he, -, hreg, hstat, hage⟩ := (h2 nm).mp hmem
        exact absurd hage (not_lt.mpr (hfresh e he hreg hstat))
    simp [cleanMacroCacheTick, hcand]
  · intro nm hnm
    simp only [cleanMacroCacheTick] at hnm
    by_cases hcond : (scanEntries maxA es).1 ≤ minB ∨ (scanEntries maxA es).2 = []
    · rw [if_pos hcond] at hnm
      cases hnm
    · rw [if_neg hcond] at hnm
      push_neg at hcond
      refine ⟨?_, (h2 nm).mp hnm⟩
      rw [← h1]
      exact hcond.1

/-- Witness for C8: in the oversized sample cache only the stale file is
evicted, and its eviction implies the size threshold was exceeded and its
age exceeded the maximum. -/
theorem cleanMacroCache_eviction_witness :
    (1000 : ℤ) < survivingSize sampleEntries
    ∧ ∃ e ∈ sampleEntries, e.name = "old.gif" ∧ e.regular = true
        ∧ e.statFails = false ∧ (10 : ℤ) < e.accessAge :=
  (cleanMacroCache_eviction 1000 10 sampleEntries).2.2 "old.gif" (by decide)

/-- Looking up an index after settling the waiters of a flight yields either
the original phase or the settled result. -/
theorem settleWaiters_get (cs : List Phase) (ws : List ℕ) (r : Except String String)
    (j : ℕ) :
    (settleWaiters cs ws r).get? j = cs.get? j
    ∨ (settleWaiters cs ws r).get? j = some (.finished r) := by
  induction ws generalizing cs with
  | nil => exact Or.inl rfl
  | cons w rest ih =>
    have hstep : settleWaiters cs (w :: rest) r
        = settleWaiters (cs.set w (.finished r)) rest r := rfl
    rw [hstep]
    rcases ih (cs.set w (.finished r)) with h | h
    · by_cases hw : w = j
      · subst hw
        rw [h, List.get?_set_eq]
        rcases hcs : cs.get? w with _ | ph
        · exact Or.inl (by simp)
        · exact Or.inr (by simp)
      · rw [h, List.get?_set_ne _ _ hw]
        exact Or.inl rfl
    · exact Or.inr h

/-- One atomic step preserves the singleflight invariant. -/
theorem sfStep_inv (gen : Except String String) (s : SFState) (st : SFStep)
    (h : SFInv gen s) : SFInv gen (sfStep gen s st) := by
  obtain ⟨h1, h2, h3⟩ := h
  cases st with
  | stat i =>
    rcases hci : s.callers.get? i with _ | ph
    · simpa only [sfStep, hci] using ⟨h1, h2, h3⟩
    · cases ph with
      | ready =>
        rcases hft : s.fileTag with _ | tag
        · have hstep : sfStep gen s (.stat i)
              = { s with callers := s.callers.set i .missed } := by
            simp only [sfStep, hci, hft]
          rw [hstep]
          refine ⟨fun j hj => ?_, fun t ht => h2 t ht, fun j r hjr => ?_⟩
          · have hj2 : (s.callers.set i Phase.missed).get? j = some .leading := hj
            show ∃ ws, s.flight = some (j, ws)
            by_cases hij : i = j
            · subst hij
              rw [List.get?_set_eq, hci] at hj2
              simp at hj2
            · rw [List.get?_set_ne _ _ hij] at hj2
              exact h1 j hj2
          · have hjr2 : (s.callers.set i Phase.missed).get? j
                = some (.finished r) := hjr
            by_cases hij : i = j
            · subst hij
              rw [List.get?_set_eq, hci] at hjr2
              simp at hjr2
            · rw [List.get?_set_ne _ _ hij] at hjr2
              exact h3 j r hjr2
        · have hstep : sfStep gen s (.stat i)
              = { s with callers := s.callers.set i (.finished (.ok tag)) } := by
            simp only [sfStep, hci, hft]
          rw [hstep]
          refine ⟨fun j hj => ?_, fun t ht => h2 t ht, fun j r hjr => ?_⟩
          · have hj2 : (s.callers.set i (Phase.finished (.ok tag))).get? j
                = some .leading := hj
            show ∃ ws, s.flight = some (j, ws)
            by_cases hij : i = j
            · subst hij
              rw [List.get?_set_eq, hci] at hj2
              simp at hj2
            · rw [List.get?_set_ne _ _ hij] at hj2
              exact h1 j hj2
          · have hjr2 : (s.callers.set i (Phase.finished (.ok tag))).get? j
                = some (.finished r) := hjr
            by_cases hij : i = j
            · subst hij
              rw [List.get?_set_eq, hci] at hjr2
              simp only [Option.map_some] at hjr2
              have hr : r = .ok tag :=
                (Phase.finished.inj (Option.some.inj hjr2)).symm
              rw [hr]
              exact (h2 tag hft).symm
            · rw [List.get?_set_ne _ _ hij] at hjr2
              exact h3 j r hjr2
      | missed => simpa only [sfStep, hci] using ⟨h1, h2, h3⟩
      | leading => simpa only [sfStep, hci] using ⟨h1, h2, h3⟩
      | waiting => simpa only [sfStep, hci] using ⟨h1, h2, h3⟩
      | finished r0 => simpa only [sfStep, hci] using ⟨h1, h2, h3⟩
  | enter i =>
    rcases hci : s.callers.get? i with _ | ph
    · simpa only [sfStep, hci] using ⟨h1, h2, h3⟩
    · cases ph with
      | missed =>
        rcases hfl : s.flight with _ | lw
        · have hstep : sfStep gen s (.enter i)
              = { s with callers := s.callers.set i Phase.leading, flight := some (i, []) } := by
            simp only [sfStep, hci, hfl]
          rw [hstep]
          refine ⟨fun j hj => ?_, fun t ht => h2 t ht, fun j r hjr => ?_⟩
          · have hj2 : (s.callers.set i Phase.leading).get? j = some .leading := hj
            show ∃ ws, some (i, []) = some (j, ws)
            by_cases hij : i = j
            · subst hij
              exact ⟨[], rfl⟩
            · rw [List.get?_set_ne _ _ hij] at hj2
              obtain ⟨ws, hws⟩ := h1 j hj2
              rw [hfl] at hws
              cases hws
          · have hjr2 : (s.callers.set i Phase.leading).get? j
                = some (.finished r) := hjr
            by_cases hij : i = j
            · subst hij
              rw [List.get?_set_eq, hci] at hjr2
              simp at hjr2
            · rw [List.get?_set_ne _ _ hij] at hjr2
              exact h3 j r hjr2
        · obtain ⟨l, ws⟩ := lw
          have hstep : sfStep gen s (.enter i)
              = { s with callers := s.callers.set i Phase.waiting, flight := some (l, ws ++ [i]) } := by
            simp only [sfStep, hci, hfl]
          rw [hstep]
          refine ⟨fun j hj => ?_, fun t ht => h2 t ht, fun j r hjr => ?_⟩
          · have hj2 : (s.callers.set i Phase.waiting).get? j = some .leading := hj
            show ∃ ws2, some (l, ws ++ [i]) = some (j, ws2)
            by_cases hij : i = j
            · subst hij
              rw [List.get?_set_eq, hci] at hj2
              simp at hj2
            · rw [List.get?_set_ne _ _ hij] at hj2
              obtain ⟨ws2, hws2⟩ := h1 j hj2
              rw [hfl] at hws2
              have hjl : l = j := congrArg Prod.fst (Option.some.inj hws2)
              exact ⟨ws ++ [i], by rw [hjl]⟩
          · have hjr2 : (s.callers.set i Phase.waiting).get? j
                = some (.finished r) := hjr
            by_cases hij : i = j
            · subst hij
              rw [List.get?_set_eq, hci] at hjr2
              simp at hjr2
            · rw [List.get?_set_ne _ _ hij] at hjr2
              exact h3 j r hjr2
      | ready => simpa only [sfStep, hci] using ⟨h1, h2, h3⟩
      | leading => simpa only [sfStep, hci] using ⟨h1, h2, h3⟩
      | waiting => simpa only [sfStep, hci] using ⟨h1, h2, h3⟩
      | finished r0 => simpa only [sfStep, hci] using ⟨h1, h2, h3⟩
  | finish i =>
    rcases hci : s.callers.get? i with _ | ph
    · simpa only [sfStep, hci] using ⟨h1, h2, h3⟩
    · cases ph with
      | leading =>
        rcases hfl : s.flight with _ | lw
        · simpa only [sfStep, hci, hfl] using ⟨h1, h2, h3⟩
        · obtain ⟨l, ws⟩ := lw
          by_cases hli : l = i
          · subst hli
            rcases hgen : gen with e | tag
            · rw [← hgen]
              have hstep : sfStep gen s (.finish l)
                  = { s with
                      callers := settleWaiters (s.callers.set l (.finished gen)) ws gen,
                      flight := none, renders := s.renders + 1 } := by
                simp only [sfStep, hci, hfl, if_pos rfl, if_true, hgen]
              rw [hstep]
              refine ⟨fun j hj => ?_, fun t ht => h2 t ht, fun j r hjr => ?_⟩
              · exfalso
                have hj2 : (settleWaiters (s.callers.set l (.finished gen)) ws gen).get? j
                    = some .leading := hj
                rcases settleWaiters_get (s.callers.set l (.finished gen)) ws gen j
                    with hg | hg
                · rw [hg] at hj2
                  by_cases hij : l = j
                  · subst hij
                    rw [List.get?_set_eq, hci] at hj2
                    simp at hj2
                  · rw [List.get?_set_ne _ _ hij] at hj2
                    obtain ⟨ws2, hws2⟩ := h1 j hj2
                    rw [hfl] at hws2
                    exact hij (congrArg Prod.fst (Option.some.inj hws2))
                · rw [hg] at hj2
                  cases Option.some.inj hj2
              · have hjr2 : (settleWaiters (s.callers.set l (.finished gen)) ws gen).get? j
                    = some (.finished r) := hjr
                rcases settleWaiters_get (s.callers.set l (.finished gen)) ws gen j
                    with hg | hg
                · rw [hg] at hjr2
                  by_cases hij : l = j
                  · subst hij
                    rw [List.get?_set_eq, hci] at hjr2
                    simp only [Option.map_some] at hjr2
                    have hg2 : Phase.finished gen = Phase.finished r := Option.some.inj hjr2
                    exact (Phase.finished.inj hg2).symm
                  · rw [List.get?_set_ne _ _ hij] at hjr2
                    exact h3 j r hjr2
                · rw [hg] at hjr2
                  have hg2 : Phase.finished gen = Phase.finished r := Option.some.inj hjr2
                  exact (Phase.finished.inj hg2).symm
            · rw [← hgen]
              have hstep : sfStep gen s (.finish l)
                  = { callers := settleWaiters (s.callers.set l (.finished gen)) ws gen,
                      fileTag := some tag, flight := none,
                      renders := s.renders + 1 } := by
                simp only [sfStep, hci, hfl, if_pos rfl, if_true, hgen]
              rw [hstep]
              refine ⟨fun j hj => ?_, fun t ht => ?_, fun j r hjr => ?_⟩
              · exfalso
                have hj2 : (settleWaiters (s.callers.set l (.finished gen)) ws gen).get? j
                    = some .leading := hj
                rcases settleWaiters_get (s.callers.set l (.finished gen)) ws gen j
                    with hg | hg
                · rw [hg] at hj2
                  by_cases hij : l = j
                  · subst hij
                    rw [List.get?_set_eq, hci] at hj2
                    simp at hj2
                  · rw [List.get?_set_ne _ _ hij] at hj2
                    obtain ⟨ws2, hws2⟩ := h1 j hj2
                    rw [hfl] at hws2
                    exact hij (congrArg Prod.fst (Option.some.inj hws2))
                · rw [hg] at hj2
                  cases Option.some.inj hj2
              · have ht2 : (some tag : Option String) = some t := ht
                rw [hgen, Option.some.inj ht2]
              · have hjr2 : (settleWaiters (s.callers.set l (.finished gen)) ws gen).get? j
                    = some (.finished r) := hjr
                rcases settleWaiters_get (s.callers.set l (.finished gen)) ws gen j
                    with hg | hg
                · rw [hg] at hjr2
                  by_cases hij : l = j
                  · subst hij
                    rw [List.get?_set_eq, hci] at hjr2
                    simp only [Option.map_some] at hjr2
                    have hg2 : Phase.finished gen = Phase.finished r := Option.some.inj hjr2
                    exact (Phase.finished.inj hg2).symm
                  · rw [List.get?_set_ne _ _ hij] at hjr2
                    exact h3 j r hjr2
                · rw [hg] at hjr2
                  have hg2 : Phase.finished gen = Phase.finished r := Option.some.inj hjr2
                  exact (Phase.finished.inj hg2).symm
          · simpa only [sfStep, hci, hfl, if_neg hli] using ⟨h1, h2, h3⟩
      | ready => simpa only [sfStep, hci] using ⟨h1, h2, h3⟩
      | missed => simpa only [sfStep, hci] using ⟨h1, h2, h3⟩
      | waiting => simpa only [sfStep, hci] using ⟨h1, h2, h3⟩
      | finished r0 => simpa only [sfStep, hci] using ⟨h1, h2, h3⟩

/-- Any schedule of atomic steps preserves the invariant. -/
theorem sfRun_inv (gen : Except String String) (s : SFState) (steps : List SFStep)
    (h : SFInv gen s) : SFInv gen (sfRun gen s steps) := by
  induction steps generalizing s with
  | nil => exact h
  | cons st rest ih => exact ih (sfStep gen s st) (sfStep_inv gen s st h)

/-- The initial state for a not-yet-cached key satisfies the invariant. -/
theorem sfInit_inv (gen : Except String String) (k : ℕ) : SFInv gen (sfInit k) := by
  refine ⟨fun i hi => ?_, fun t ht => ?_, fun i r hir => ?_⟩
  · exfalso
    have hi2 : (List.replicate k Phase.ready).get? i = some .leading := hi
    rcases Nat.lt_or_ge i k with hlt | hge
    · rw [List.get?_eq_getElem?, List.getElem?_replicate, if_pos hlt] at hi2
      cases Option.some.inj hi2
    · rw [List.get?_eq_getElem?, List.getElem?_replicate, if_neg (by omega)] at hi2
      cases hi2
  · cases ht
  · exfalso
    have hir2 : (List.replicate k Phase.ready).get? i = some (.finished r) := hir
    rcases Nat.lt_or_ge i k with hlt | hge
    · rw [List.get?_eq_getElem?, List.getElem?_replicate, if_pos hlt] at hir2
      cases Option.some.inj hir2
    · rw [List.get?_eq_getElem?, List.getElem?_replicate, if_neg (by omega)] at hir2
      cases hir2

/-- C3 (amended): for `k` concurrent requests to the same not-yet-cached
cache path, under every schedule at most one generation is active at a time
(any two requests in the leading phase coincide), and every request that
completes observes the single deterministic generation outcome — the same
ETag when it succeeds, or the same error when it fails.  (The renderer may
execute more than once when a request that statted a miss enters the dedup
region only after an earlier generation already completed; see the
counterexample.) -/
theorem singleflight_dedup (gen : Except String String) (k : ℕ) (steps : List SFStep) :
    (∀ i j : ℕ,
        (sfRun gen (sfInit k) steps).callers.get? i = some .leading →
        (sfRun gen (sfInit k) steps).callers.get? j = some .leading → i = j)
    ∧ ∀ (i : ℕ) (r : Except String String),
        (sfRun gen (sfInit k) steps).callers.get? i = some (.finished r) → r = gen := by
  obtain ⟨h1, h2, h3⟩ := sfRun_inv gen (sfInit k) steps (sfInit_inv gen k)
  refine ⟨fun i j hi hj => ?_, h3⟩
  obtain ⟨ws1, hw1⟩ := h1 i hi
  obtain ⟨ws2, hw2⟩ := h1 j hj
  rw [hw1] at hw2
  exact congrArg Prod.fst (Option.some.inj hw2)

/-- Counterexample to C3: two requests both arrive (and stat a miss) while
the macro is not yet cached, yet the renderer executes twice: request 0
completes its whole generation between request 1's `os.Stat` miss and
request 1's `singleflight.Do` call, so request 1 starts a second flight.
Both requests do observe the same ETag, but the renderer ran twice, not
once. -/
theorem singleflight_double_render_counterexample :
    (sfInit 2).fileTag = none
    ∧ (sfRun (.ok "E") (sfInit 2)
        [.stat 0, .stat 1, .enter 0, .finish 0, .enter 1, .finish 1]).callers
        = [.finished (.ok "E"), .finished (.ok "E")]
    ∧ (sfRun (.ok "E") (sfInit 2)
        [.stat 0, .stat 1, .enter 0, .finish 0, .enter 1, .finish 1]).renders = 2
    ∧ ¬ (sfRun (.ok "E") (sfInit 2)
        [.stat 0, .stat 1, .enter 0, .finish 0, .enter 1, .finish 1]).renders = 1 := by
  decide

/-- Witness for the amended C3: on a schedule where request 1 joins request
0's in-flight generation, the run performs one render and request 1's
observed result is forced to the generation outcome by the theorem. -/
theorem singleflight_dedup_witness :
    (sfRun (.ok "E") (sfInit 2)
        [.stat 0, .enter 0, .stat 1, .enter 1, .finish 0]).renders = 1
    ∧ (Except.ok "E" : Except String String) = .ok "E" :=
  ⟨by decide,
    (singleflight_dedup (.ok "E") 2
        [.stat 0, .enter 0, .stat 1, .enter 1, .finish 0]).2 1 (.ok "E") (by decide)⟩

end Tmemes
